import Mathlib

/-!
Verification of the `EventHooks` registry from `src/lib/utils/hooks.ts`.

The registry maps event identifiers to ordered sequences of listener
records `{ listener, once?, order }`.  Event identifiers and listener
callbacks are modelled by natural-number identifiers; callback behaviour
is supplied to `emit` as an environment mapping a listener identifier to
its function.  Identifier equality models JavaScript reference identity
of callbacks.  The registry's `Map` is modelled as a total function from
event identifiers to listener lists, with the empty list standing for an
absent entry (`_listeners.get(event) || []`).
-/

/-- A listener record, `{ listener: Function; once?: boolean; order: number }`
from hooks.ts.  The `listener` field holds the callback's identity. -/
structure Hook where
  listener : Nat
  once : Bool
  order : Int
deriving DecidableEq

/-- Registry state: the `_listeners` map of `EventHooks`. -/
def EventHooks : Type := Nat → List Hook

/-- A freshly constructed registry: every event has no listeners. -/
def EventHooks.empty : EventHooks := fun _ => []

/-- `_listeners.get(event) || []`. -/
def EventHooks.get (h : EventHooks) (e : Nat) : List Hook := h e

/-- `_listeners.set(event, l)`. -/
def EventHooks.set (h : EventHooks) (e : Nat) (l : List Hook) : EventHooks :=
  fun x => if x = e then l else h x

/-- Modelled from the spec: `insertOrderSorted` (imported by hooks.ts from
`./array`, whose source is not in the excerpt).  Per the spec's ordering
algorithm, the new record is placed at the first position whose existing
record has `order` strictly greater than the new record's `order`;
if no such position exists it is appended at the end. -/
def insertOrderSorted (l : List Hook) (r : Hook) : List Hook :=
  match l with
  | [] => [r]
  | x :: xs => if r.order < x.order then r :: x :: xs else x :: insertOrderSorted xs r

/-- `EventHooks.on`: copies the event's list, inserts a non-once record
in order, and stores the copy back. -/
def EventHooks.on (h : EventHooks) (e : Nat) (fn : Nat) (order : Int) : EventHooks :=
  h.set e (insertOrderSorted (h.get e) ⟨fn, false, order⟩)

/-- `EventHooks.once`: like `on` but the record is marked one-shot. -/
def EventHooks.once (h : EventHooks) (e : Nat) (fn : Nat) (order : Int) : EventHooks :=
  h.set e (insertOrderSorted (h.get e) ⟨fn, true, order⟩)

/-- `EventHooks.off`: finds the first record whose stored callback is
`fn` (reference identity) and removes it; no-op when there is none. -/
def EventHooks.off (h : EventHooks) (e : Nat) (fn : Nat) : EventHooks :=
  let listeners := h.get e
  match listeners.findIdx? (fun lo => lo.listener = fn) with
  | some index => h.set e (listeners.eraseIdx index)
  | none => h

/-- `EventHooks.emit` with listeners modelled as pure functions
`env fn : A → R` (`A` stands for the event's argument tuple).  Takes the
snapshot, stores back the snapshot minus its once-records, then maps the
callbacks over the snapshot, returning the results and the new state. -/
def EventHooks.emit {A R : Type} (h : EventHooks) (e : Nat)
    (env : Nat → A → R) (args : A) : List R × EventHooks :=
  let listeners := h.get e
  let h1 := h.set e (listeners.filter (fun r => !r.once))
  (listeners.map (fun r => env r.listener args), h1)

/-- Mapping a fallible callback over records: the JavaScript `Array.map`
where the callback may throw, so the first error aborts the traversal
and propagates, losing the results collected so far. -/
def mapThrow {R E : Type} (f : Hook → Except E R) : List Hook → Except E (List R)
  | [] => Except.ok []
  | x :: xs =>
    match f x with
    | Except.error err => Except.error err
    | Except.ok v =>
      match mapThrow f xs with
      | Except.error err => Except.error err
      | Except.ok vs => Except.ok (v :: vs)

/-- `EventHooks.emit` with listeners modelled as fallible functions:
a thrown exception aborts the `map`, but the `_listeners.set` update
has already happened. -/
def EventHooks.emitE {A R E : Type} (h : EventHooks) (e : Nat)
    (env : Nat → A → Except E R) (args : A) : Except E (List R) × EventHooks :=
  let listeners := h.get e
  let h1 := h.set e (listeners.filter (fun r => !r.once))
  (mapThrow (fun r => env r.listener args) listeners, h1)

/-- `EventHooks.emit` with listeners modelled as registry-mutating
functions (a callback may call `on` / `once` / `off` on the registry,
which in JavaScript mutates `this._listeners`): each callback receives
the current registry state and returns its value with the new state.
The iteration stays over the snapshot taken before the once-filter
update, exactly as `listeners.map` iterates the `slice()`. -/
def EventHooks.emitS {A R : Type} (h : EventHooks) (e : Nat)
    (env : Nat → EventHooks → A → R × EventHooks) (args : A) : List R × EventHooks :=
  let listeners := h.get e
  let h1 := h.set e (listeners.filter (fun r => !r.once))
  listeners.foldl
    (fun acc r =>
      let vs := env r.listener acc.2 args
      (acc.1 ++ [vs.1], vs.2))
    ([], h1)

/-- One registry operation, for stating invariants over arbitrary
operation sequences. -/
inductive Op (A R : Type) where
  | on (e : Nat) (fn : Nat) (order : Int)
  | once (e : Nat) (fn : Nat) (order : Int)
  | off (e : Nat) (fn : Nat)
  | emit (e : Nat) (env : Nat → A → R) (args : A)

/-- Apply one operation to the registry. -/
def applyOp {A R : Type} (h : EventHooks) : Op A R → EventHooks
  | Op.on e fn order => h.on e fn order
  | Op.once e fn order => h.once e fn order
  | Op.off e fn => h.off e fn
  | Op.emit e env args => (h.emit e env args).2

/-- Run a sequence of operations from a starting registry. -/
def runOps {A R : Type} (h : EventHooks) : List (Op A R) → EventHooks
  | [] => h
  | op :: ops => runOps (applyOp h op) ops

/-- The listener sequence is in non-decreasing `order`. -/
def SortedByOrder (l : List Hook) : Prop :=
  l.Pairwise (fun a b => a.order ≤ b.order)

/-- Number of records of a sequence whose callback is `fn`. -/
def countFn (l : List Hook) (fn : Nat) : Nat :=
  (l.map (fun r => r.listener)).count fn

theorem EventHooks.get_set_self (h : EventHooks) (e : Nat) (l : List Hook) :
    (h.set e l).get e = l := by
  simp [EventHooks.get, EventHooks.set]

theorem EventHooks.get_set_ne (h : EventHooks) (e e' : Nat) (l : List Hook)
    (hne : e' ≠ e) : (h.set e l).get e' = h.get e' := by
  simp [EventHooks.get, EventHooks.set, hne]

theorem mem_insertOrderSorted {l : List Hook} {r x : Hook}
    (hx : x ∈ insertOrderSorted l r) : x = r ∨ x ∈ l := by
  induction l with
  | nil =>
    simp [insertOrderSorted] at hx
    exact Or.inl hx
  | cons y ys ih =>
    rw [insertOrderSorted] at hx
    by_cases hlt : r.order < y.order
    · rw [if_pos hlt] at hx
      rcases List.mem_cons.mp hx with hx | hx
      · exact Or.inl hx
      · exact Or.inr hx
    · rw [if_neg hlt] at hx
      rcases List.mem_cons.mp hx with hx | hx
      · exact Or.inr (hx ▸ List.mem_cons_self y ys)
      · rcases ih hx with hx | hx
        · exact Or.inl hx
        · exact Or.inr (List.mem_cons_of_mem y hx)

theorem sortedByOrder_insertOrderSorted {l : List Hook} (r : Hook)
    (hl : SortedByOrder l) : SortedByOrder (insertOrderSorted l r) := by
  induction l with
  | nil => simp [insertOrderSorted, SortedByOrder]
  | cons y ys ih =>
    rcases List.pairwise_cons.mp hl with ⟨hy, hys⟩
    rw [insertOrderSorted]
    by_cases hlt : r.order < y.order
    · rw [if_pos hlt]
      refine List.pairwise_cons.mpr ⟨?_, hl⟩
      intro b hb
      rcases List.mem_cons.mp hb with hb | hb
      · exact hb ▸ le_of_lt hlt
      · exact le_trans (le_of_lt hlt) (hy b hb)
    · rw [if_neg hlt]
      refine List.pairwise_cons.mpr ⟨?_, ih hys⟩
      intro b hb
      rcases mem_insertOrderSorted hb with hb | hb
      · exact hb ▸ le_of_not_lt hlt
      · exact hy b hb

theorem insertOrderSorted_eq_takeWhile_dropWhile (l : List Hook) (r : Hook) :
    insertOrderSorted l r
      = l.takeWhile (fun x => !decide (r.order < x.order))
        ++ r :: l.dropWhile (fun x => !decide (r.order < x.order)) := by
  induction l with
  | nil => simp [insertOrderSorted]
  | cons y ys ih =>
    rw [insertOrderSorted]
    by_cases hlt : r.order < y.order
    · rw [if_pos hlt]
      rw [List.takeWhile_cons, List.dropWhile_cons]
      simp [hlt]
    · rw [if_neg hlt]
      rw [List.takeWhile_cons, List.dropWhile_cons]
      simp only [hlt, decide_False, Bool.not_false, if_true]
      rw [ih]
      simp

theorem insertOrderSorted_append {l : List Hook} {r : Hook}
    (hall : ∀ x ∈ l, ¬ r.order < x.order) : insertOrderSorted l r = l ++ [r] := by
  induction l with
  | nil => simp [insertOrderSorted]
  | cons y ys ih =>
    rw [insertOrderSorted, if_neg (hall y (List.mem_cons_self y ys))]
    rw [ih fun x hx => hall x (List.mem_cons_of_mem y hx)]
    simp

theorem sortedByOrder_applyOp {A R : Type} (h : EventHooks) (op : Op A R)
    (hh : ∀ e, SortedByOrder (h.get e)) :
    ∀ e, SortedByOrder ((applyOp h op).get e) := by
  intro e
  match op with
  | Op.on e0 fn order =>
    by_cases he : e = e0
    · subst he
      rw [applyOp, EventHooks.on, EventHooks.get_set_self]
      exact sortedByOrder_insertOrderSorted _ (hh e)
    · rw [applyOp, EventHooks.on, EventHooks.get_set_ne _ _ _ _ he]
      exact hh e
  | Op.once e0 fn order =>
    by_cases he : e = e0
    · subst he
      rw [applyOp, EventHooks.once, EventHooks.get_set_self]
      exact sortedByOrder_insertOrderSorted _ (hh e)
    · rw [applyOp, EventHooks.once, EventHooks.get_set_ne _ _ _ _ he]
      exact hh e
  | Op.off e0 fn =>
    rw [applyOp, EventHooks.off]
    cases hidx : (h.get e0).findIdx? (fun lo => lo.listener = fn) with
    | none => exact hh e
    | some index =>
      by_cases he : e = e0
      · subst he
        rw [EventHooks.get_set_self]
        exact List.Pairwise.sublist (List.eraseIdx_sublist _ index) (hh e)
      · rw [EventHooks.get_set_ne _ _ _ _ he]
        exact hh e
  | Op.emit e0 env args =>
    by_cases he : e = e0
    · subst he
      rw [applyOp, EventHooks.emit, EventHooks.get_set_self]
      exact List.Pairwise.filter _ (hh e)
    · rw [applyOp, EventHooks.emit, EventHooks.get_set_ne _ _ _ _ he]
      exact hh e

theorem sortedByOrder_runOps {A R : Type} (ops : List (Op A R)) (h : EventHooks)
    (hh : ∀ e, SortedByOrder (h.get e)) :
    ∀ e, SortedByOrder ((runOps h ops).get e) := by
  induction ops generalizing h with
  | nil => exact hh
  | cons op ops ih => exact ih (applyOp h op) (sortedByOrder_applyOp h op hh)

/-- Claim C1: after any sequence of on/once/off/emit operations from the
empty registry, every event's stored listener sequence is in
non-decreasing `order`; `on` and `once` insert the new record at the
first position whose existing record has `order` strictly greater than
the new record's `order` (the kept prefix is the records with `order`
not strictly greater), appending at the end when no such position
exists, so records with equal `order` keep their registration order. -/
theorem listener_sequence_sorted_stable :
    (∀ (A R : Type) (ops : List (Op A R)) (e : Nat),
      SortedByOrder ((runOps EventHooks.empty ops).get e))
    ∧ (∀ (l : List Hook) (r : Hook),
      insertOrderSorted l r
        = l.takeWhile (fun x => !decide (r.order < x.order))
          ++ r :: l.dropWhile (fun x => !decide (r.order < x.order)))
    ∧ (∀ (l : List Hook) (r : Hook), (∀ x ∈ l, ¬ r.order < x.order) →
      insertOrderSorted l r = l ++ [r]) := by
  refine ⟨fun A R ops e => ?_, insertOrderSorted_eq_takeWhile_dropWhile,
    fun l r h => insertOrderSorted_append h⟩
  exact sortedByOrder_runOps ops EventHooks.empty
    (fun _ => List.Pairwise.nil) e

/-- Instance of C1 at concrete inputs, the append hypothesis discharged
concretely. -/
theorem listener_sequence_sorted_stable_witness :
    (∀ x ∈ [(⟨1, false, 0⟩ : Hook), ⟨2, false, 1⟩], ¬ (1 : Int) < x.order)
    ∧ SortedByOrder ((runOps EventHooks.empty
        [Op.on (A := Nat) (R := Nat) 0 3 1, Op.on 0 4 0, Op.once 0 5 1,
          Op.off 0 3, Op.emit 0 (fun n a => n + a) 2]).get 0)
    ∧ insertOrderSorted [⟨1, false, 0⟩, ⟨2, false, 1⟩] ⟨6, false, 1⟩
        = [⟨1, false, 0⟩, ⟨2, false, 1⟩] ++ [⟨6, false, 1⟩] := by
  refine ⟨by decide, listener_sequence_sorted_stable.1 Nat Nat _ 0,
    listener_sequence_sorted_stable.2.2 _ _ (by decide)⟩

/-- Claim C2: `emit` invokes each listener of the event's current
sequence in sequence order with the arguments and returns their values
positionally; concretely, after `on` with orders 0 and -1, emitting 5
returns `[10, 6]` (the order -1 listener fires first). -/
theorem emit_dispatch_order :
    (∀ (A R : Type) (h : EventHooks) (e : Nat) (env : Nat → A → R) (args : A),
      (h.emit e env args).1 = (h.get e).map (fun r => env r.listener args))
    ∧ (((EventHooks.empty.on 0 0 0).on 0 1 (-1)).emit 0
        (fun fn f => if fn = 0 then f + 1 else f * 2) (5 : Int)).1 = [10, 6] :=
  ⟨fun _ _ _ _ _ _ => rfl, by decide⟩

theorem insertOrderSorted_perm (l : List Hook) (r : Hook) :
    (insertOrderSorted l r).Perm (r :: l) := by
  induction l with
  | nil => simp [insertOrderSorted]
  | cons y ys ih =>
    rw [insertOrderSorted]
    by_cases hlt : r.order < y.order
    · rw [if_pos hlt]
    · rw [if_neg hlt]
      exact List.Perm.trans (List.Perm.cons y ih) (List.Perm.swap r y ys)

theorem countFn_insertOrderSorted (l : List Hook) (r : Hook) (fn : Nat) :
    countFn (insertOrderSorted l r) fn = countFn (r :: l) fn := by
  unfold countFn
  exact List.Perm.count_eq (List.Perm.map _ (insertOrderSorted_perm l r)) fn

theorem countFn_eq_zero {l : List Hook} {fn : Nat}
    (hfresh : fn ∉ l.map (fun r => r.listener)) : countFn l fn = 0 :=
  List.count_eq_zero.mpr hfresh

/-- Claim C3: for a fresh listener registered via `once`, the first
`emit` invokes it exactly once (its record occurs once in the dispatched
sequence and its value is among the results), the stored sequence after
that `emit` no longer contains it, and no `emit` ever re-adds it, so it
is absent from the second and every subsequent dispatch. -/
theorem once_fires_exactly_once {A R : Type} (h : EventHooks) (e fn : Nat)
    (order : Int) (env : Nat → A → R) (a1 : A)
    (hfresh : fn ∉ (h.get e).map (fun r => r.listener)) :
    countFn ((h.once e fn order).get e) fn = 1
    ∧ env fn a1 ∈ ((h.once e fn order).emit e env a1).1
    ∧ countFn ((((h.once e fn order).emit e env a1).2).get e) fn = 0
    ∧ (∀ (h' : EventHooks) (e' : Nat) (env' : Nat → A → R) (a' : A),
        fn ∉ ((h'.get e).map fun r => r.listener) →
        fn ∉ ((((h'.emit e' env' a').2).get e).map fun r => r.listener)) := by
  have hget1 : (h.once e fn order).get e
      = insertOrderSorted (h.get e) ⟨fn, true, order⟩ := by
    rw [EventHooks.once, EventHooks.get_set_self]
  have hcount1 : countFn ((h.once e fn order).get e) fn = 1 := by
    rw [hget1, countFn_insertOrderSorted]
    unfold countFn
    have h0 : countFn (h.get e) fn = 0 := countFn_eq_zero hfresh
    unfold countFn at h0
    rw [List.map_cons, List.count_cons_self, h0]
  refine ⟨hcount1, ?_, ?_, ?_⟩
  · show env fn a1 ∈ ((h.once e fn order).get e).map (fun r => env r.listener a1)
    refine List.mem_map.mpr ⟨⟨fn, true, order⟩, ?_, rfl⟩
    rw [hget1]
    exact (insertOrderSorted_perm _ _).mem_iff.mpr
      (List.mem_cons_self _ _)
  · show countFn (((h.once e fn order).set e
        (((h.once e fn order).get e).filter fun r => !r.once)).get e) fn = 0
    rw [EventHooks.get_set_self]
    refine countFn_eq_zero ?_
    intro hmem
    rcases List.mem_map.mp hmem with ⟨r, hr, hrfn⟩
    have hr1 : r ∈ (h.once e fn order).get e := List.mem_of_mem_filter hr
    have hbang : (!r.once) = true := (List.mem_filter.mp hr).2
    rw [hget1] at hr1
    rcases mem_insertOrderSorted hr1 with hr1 | hr1
    · rw [hr1] at hbang
      simp at hbang
    · exact hfresh (List.mem_map.mpr ⟨r, hr1, hrfn⟩)
  · intro h' e' env' a' hnot hmem
    by_cases he : e = e'
    · subst he
      rw [EventHooks.emit, EventHooks.get_set_self] at hmem
      rcases List.mem_map.mp hmem with ⟨r, hr, hrfn⟩
      exact hnot (List.mem_map.mpr ⟨r, List.mem_of_mem_filter hr, hrfn⟩)
    · rw [EventHooks.emit, EventHooks.get_set_ne _ _ _ _ he] at hmem
      exact hnot hmem

/-- Instance of C3 on the empty registry with listener identifier 7. -/
theorem once_fires_exactly_once_witness :
    ((7 : Nat) ∉ (EventHooks.empty.get 0).map (fun r => r.listener))
    ∧ (countFn ((EventHooks.empty.once 0 7 0).get 0) 7 = 1
      ∧ (fun (n a : Nat) => n + a) 7 1
          ∈ ((EventHooks.empty.once 0 7 0).emit 0 (fun n a => n + a) 1).1
      ∧ countFn ((((EventHooks.empty.once 0 7 0).emit 0
          (fun n a => n + a) 1).2).get 0) 7 = 0
      ∧ (∀ (h' : EventHooks) (e' : Nat) (env' : Nat → Nat → Nat) (a' : Nat),
          7 ∉ ((h'.get 0).map fun r => r.listener) →
          7 ∉ ((((h'.emit e' env' a').2).get 0).map fun r => r.listener))) :=
  ⟨by decide,
    once_fires_exactly_once EventHooks.empty 0 7 0 (fun n a => n + a) 1 (by decide)⟩

theorem findIdx?_first_match (p : Hook → Bool) (l1 l2 : List Hook) (r : Hook)
    (h1 : ∀ x ∈ l1, p x = false) (hr : p r = true) :
    (l1 ++ r :: l2).findIdx? p = some l1.length := by
  induction l1 with
  | nil => simp [hr]
  | cons y ys ih =>
    have hy : p y = false := h1 y (List.mem_cons_self y ys)
    rw [List.cons_append, List.findIdx?_cons, if_neg (by simp [hy]),
      List.findIdx?_succ, ih fun x hx => h1 x (List.mem_cons_of_mem y hx)]
    simp

/-- Claim C4: `off` removes exactly the first record of the event's
sequence whose stored callback identity equals the given listener; when
no record matches (never registered, already removed, or unknown event)
`off` leaves the registry completely unchanged. -/
theorem off_removes_first_match :
    (∀ (h : EventHooks) (e fn : Nat),
      (∀ r ∈ h.get e, r.listener ≠ fn) → h.off e fn = h)
    ∧ (∀ (h : EventHooks) (e fn : Nat) (l1 l2 : List Hook) (r : Hook),
      h.get e = l1 ++ r :: l2 → r.listener = fn →
      (∀ x ∈ l1, x.listener ≠ fn) →
      (h.off e fn).get e = l1 ++ l2) := by
  constructor
  · intro h e fn hnone
    have hidx : (h.get e).findIdx? (fun lo => lo.listener = fn) = none :=
      List.findIdx?_eq_none_iff.mpr fun x hx => by simp [hnone x hx]
    simp only [EventHooks.off]
    split
    next index heq => rw [hidx] at heq; exact Option.noConfusion heq
    next => rfl
  · intro h e fn l1 l2 r hsplit hrfn h1
    have hidx : (h.get e).findIdx? (fun lo => lo.listener = fn) = some l1.length := by
      rw [hsplit]
      exact findIdx?_first_match _ l1 l2 r (fun x hx => by simp [h1 x hx])
        (by simp [hrfn])
    simp only [EventHooks.off]
    split
    next index heq =>
      rw [hidx] at heq
      injection heq with hidx2
      subst hidx2
      rw [EventHooks.get_set_self, hsplit,
        List.eraseIdx_append_of_length_le (Nat.le_refl _)]
      simp
    next heq => rw [hidx] at heq; exact Option.noConfusion heq

/-- Instance of C4: a no-match `off` on the empty registry, and an
`off` with the same callback registered twice removing only the first
record. -/
theorem off_removes_first_match_witness :
    ((∀ r ∈ EventHooks.empty.get 0, r.listener ≠ 5)
      ∧ EventHooks.empty.off 0 5 = EventHooks.empty)
    ∧ (((EventHooks.empty.on 0 5 0).on 0 5 1).get 0
        = [] ++ (⟨5, false, 0⟩ : Hook) :: [⟨5, false, 1⟩]
      ∧ (((EventHooks.empty.on 0 5 0).on 0 5 1).off 0 5).get 0
        = [] ++ [⟨5, false, 1⟩]) :=
  ⟨⟨by decide, off_removes_first_match.1 EventHooks.empty 0 5 (by decide)⟩,
    ⟨by decide,
      off_removes_first_match.2 _ 0 5 [] [⟨5, false, 1⟩] ⟨5, false, 0⟩
        (by decide) rfl (by decide)⟩⟩

/-- Claim C5: every operation mutates at most the listener sequence
stored for its own event; any other event's sequence is unchanged. -/
theorem ops_frame_other_events {A R : Type} (h : EventHooks) (e e' fn : Nat)
    (order : Int) (env : Nat → A → R) (args : A) (hne : e' ≠ e) :
    (h.on e fn order).get e' = h.get e'
    ∧ (h.once e fn order).get e' = h.get e'
    ∧ (h.off e fn).get e' = h.get e'
    ∧ ((h.emit e env args).2).get e' = h.get e' := by
  refine ⟨EventHooks.get_set_ne _ _ _ _ hne, EventHooks.get_set_ne _ _ _ _ hne,
    ?_, EventHooks.get_set_ne _ _ _ _ hne⟩
  simp only [EventHooks.off]
  split
  next index heq => exact EventHooks.get_set_ne _ _ _ _ hne
  next => rfl

/-- Instance of C5 with events 0 and 1. -/
theorem ops_frame_other_events_witness :
    ((1 : Nat) ≠ 0)
    ∧ (((EventHooks.empty.on 1 2 0).on 0 3 0).get 1
        = (EventHooks.empty.on 1 2 0).get 1
      ∧ ((EventHooks.empty.on 1 2 0).once 0 3 0).get 1
        = (EventHooks.empty.on 1 2 0).get 1
      ∧ ((EventHooks.empty.on 1 2 0).off 0 3).get 1
        = (EventHooks.empty.on 1 2 0).get 1
      ∧ (((EventHooks.empty.on 1 2 0).emit 0 (fun (n a : Nat) => n) 0).2).get 1
        = (EventHooks.empty.on 1 2 0).get 1) :=
  ⟨by decide,
    ops_frame_other_events (EventHooks.empty.on 1 2 0) 0 1 3 0
      (fun (n a : Nat) => n) 0 (by decide)⟩

theorem emitS_foldl_fst {A R : Type} (env : Nat → EventHooks → A → R × EventHooks)
    (envPure : Nat → A → R) (args : A)
    (hval : ∀ fn st a, (env fn st a).1 = envPure fn a) :
    ∀ (l : List Hook) (acc : List R) (st : EventHooks),
      (l.foldl
        (fun acc r =>
          let vs := env r.listener acc.2 args
          (acc.1 ++ [vs.1], vs.2))
        (acc, st)).1
      = acc ++ l.map (fun r => envPure r.listener args) := by
  intro l
  induction l with
  | nil => intro acc st; simp
  | cons y ys ih =>
    intro acc st
    rw [List.foldl_cons, ih]
    simp [hval]

theorem emitS_foldl_snd {A R : Type} (env : Nat → EventHooks → A → R × EventHooks)
    (args : A) :
    ∀ (l : List Hook) (acc : List R) (st : EventHooks),
      (l.foldl
        (fun acc r =>
          let vs := env r.listener acc.2 args
          (acc.1 ++ [vs.1], vs.2))
        (acc, st)).2
      = l.foldl (fun st r => (env r.listener st args).2) st := by
  intro l
  induction l with
  | nil => intro acc st; rfl
  | cons y ys ih =>
    intro acc st
    rw [List.foldl_cons, List.foldl_cons, ih]

/-- Claim C6: registry mutations performed by listener callbacks during
an `emit` (the state component of `env`, which covers any combination
of re-entrant `on` / `once` / `off` calls) affect neither the sequence
of listeners invoked by that `emit` nor its result sequence: the results
equal the pure dispatch over the pre-emit sequence. -/
theorem reentrant_mutation_deferred {A R : Type} (h : EventHooks) (e : Nat)
    (env : Nat → EventHooks → A → R × EventHooks) (envPure : Nat → A → R)
    (args : A) (hval : ∀ fn st a, (env fn st a).1 = envPure fn a) :
    (h.emitS e env args).1 = (h.get e).map (fun r => envPure r.listener args)
    ∧ (h.emitS e env args).1 = (h.emit e envPure args).1 := by
  have hfst : (h.emitS e env args).1
      = (h.get e).map (fun r => envPure r.listener args) := by
    simp only [EventHooks.emitS]
    rw [emitS_foldl_fst env envPure args hval]
    simp
  exact ⟨hfst, hfst⟩

/-- Instance of C6: a listener that re-entrantly registers listener 99
does not change the results of the emit in progress. -/
theorem reentrant_mutation_deferred_witness :
    (∀ (fn : Nat) (st : EventHooks) (a : Nat),
      ((fun (g : Nat) (st : EventHooks) (a : Nat) => (g + a, st.on 0 99 0))
        fn st a).1 = (fun (g a : Nat) => g + a) fn a)
    ∧ (((EventHooks.empty.on 0 1 0).emitS 0
          (fun (g : Nat) (st : EventHooks) (a : Nat) => (g + a, st.on 0 99 0)) 2).1
        = ((EventHooks.empty.on 0 1 0).get 0).map
            (fun r => (fun (g a : Nat) => g + a) r.listener 2)
      ∧ ((EventHooks.empty.on 0 1 0).emitS 0
          (fun (g : Nat) (st : EventHooks) (a : Nat) => (g + a, st.on 0 99 0)) 2).1
        = ((EventHooks.empty.on 0 1 0).emit 0 (fun (g a : Nat) => g + a) 2).1) :=
  ⟨fun _ _ _ => rfl,
    reentrant_mutation_deferred (EventHooks.empty.on 0 1 0) 0
      (fun g st a => (g + a, st.on 0 99 0)) (fun g a => g + a) 2
      (fun _ _ _ => rfl)⟩

theorem countFn_insert_self (l : List Hook) (fn : Nat) (b : Bool) (o : Int) :
    countFn (insertOrderSorted l ⟨fn, b, o⟩) fn = countFn l fn + 1 := by
  rw [countFn_insertOrderSorted]
  unfold countFn
  rw [List.map_cons, List.count_cons_self]

theorem countFn_cons_ne (y : Hook) (ys : List Hook) (fn : Nat)
    (hy : y.listener ≠ fn) : countFn (y :: ys) fn = countFn ys fn := by
  unfold countFn
  rw [List.map_cons, List.count_cons_of_ne (fun hh => hy hh.symm)]

theorem countFn_cons_self (y : Hook) (ys : List Hook) (fn : Nat)
    (hy : y.listener = fn) : countFn (y :: ys) fn = countFn ys fn + 1 := by
  unfold countFn
  rw [List.map_cons, hy, List.count_cons_self]

theorem countFn_filter_insert_once {h : EventHooks} {e fn : Nat} {order : Int}
    (hfresh : fn ∉ (h.get e).map (fun r => r.listener)) :
    countFn ((insertOrderSorted (h.get e) ⟨fn, true, order⟩).filter
      (fun r => !r.once)) fn = 0 := by
  refine countFn_eq_zero ?_
  intro hmem
  rcases List.mem_map.mp hmem with ⟨r, hr, hrfn⟩
  have hr1 := List.mem_of_mem_filter hr
  have hbang : (!r.once) = true := (List.mem_filter.mp hr).2
  rcases mem_insertOrderSorted hr1 with hr1 | hr1
  · rw [hr1] at hbang
    simp at hbang
  · exact hfresh (List.mem_map.mpr ⟨r, hr1, hrfn⟩)

theorem countFn_foldState {A R : Type} (env : Nat → EventHooks → A → R × EventHooks)
    (args : A) (e fn : Nat)
    (hself : ∀ st a, countFn (((env fn st a).2).get e) fn
      = countFn (st.get e) fn + 1)
    (hothers : ∀ g st a, g ≠ fn → (env g st a).2 = st) :
    ∀ (l : List Hook) (st : EventHooks),
      countFn ((l.foldl (fun st r => (env r.listener st args).2) st).get e) fn
        = countFn (st.get e) fn + countFn l fn := by
  intro l
  induction l with
  | nil =>
    intro st
    simp [countFn]
  | cons y ys ih =>
    intro st
    rw [List.foldl_cons, ih]
    by_cases hy : y.listener = fn
    · rw [hy, hself st args, countFn_cons_self y ys fn hy]
      omega
    · rw [hothers y.listener st args hy, countFn_cons_ne y ys fn hy]

/-- Claim C7: `emit` updates the stored sequence to exclude every
once-record of the snapshot before any callback runs (the pure-`emit`
equation), so a once listener whose callback re-registers it during its
own invocation ends up stored exactly once for subsequent emits —
neither double-counted nor lost. -/
theorem once_removed_before_dispatch {A R : Type} (h : EventHooks) (e fn : Nat)
    (order : Int) (env : Nat → EventHooks → A → R × EventHooks) (args : A)
    (hfresh : fn ∉ (h.get e).map (fun r => r.listener))
    (hself : ∀ st a, countFn (((env fn st a).2).get e) fn
      = countFn (st.get e) fn + 1)
    (hothers : ∀ g st a, g ≠ fn → (env g st a).2 = st) :
    (∀ (h' : EventHooks) (e' : Nat) (envP : Nat → A → R) (a : A),
      ((h'.emit e' envP a).2).get e' = (h'.get e').filter (fun r => !r.once))
    ∧ countFn ((((h.once e fn order).emitS e env args).2).get e) fn = 1 := by
  constructor
  · intro h' e' envP a
    rw [EventHooks.emit, EventHooks.get_set_self]
  · have hget1 : (h.once e fn order).get e
        = insertOrderSorted (h.get e) ⟨fn, true, order⟩ := by
      rw [EventHooks.once, EventHooks.get_set_self]
    simp only [EventHooks.emitS]
    rw [emitS_foldl_snd env args,
      countFn_foldState env args e fn hself hothers,
      EventHooks.get_set_self, hget1, countFn_filter_insert_once hfresh,
      countFn_insert_self]
    have h0 : countFn (h.get e) fn = 0 := countFn_eq_zero hfresh
    rw [h0]

/-- Instance of C7: a self-re-registering once listener on the empty
registry is stored exactly once after the emit. -/
theorem once_removed_before_dispatch_witness :
    ((0 : Nat) ∉ (EventHooks.empty.get 0).map (fun r => r.listener))
    ∧ (∀ (st : EventHooks) (a : Nat),
        countFn ((((fun (g : Nat) (st : EventHooks) (a : Nat) =>
          (g + a, if g = 0 then EventHooks.once st 0 0 0 else st)) 0 st a).2).get 0)
          0 = countFn (st.get 0) 0 + 1)
    ∧ ((∀ (h' : EventHooks) (e' : Nat) (envP : Nat → Nat → Nat) (a : Nat),
        ((h'.emit e' envP a).2).get e' = (h'.get e').filter (fun r => !r.once))
      ∧ countFn ((((EventHooks.empty.once 0 0 0).emitS 0
          (fun (g : Nat) (st : EventHooks) (a : Nat) =>
            (g + a, if g = 0 then EventHooks.once st 0 0 0 else st)) 1).2).get 0)
          0 = 1) :=
  ⟨by decide,
    fun st a => by
      show countFn ((EventHooks.once st 0 0 0).get 0) 0 = countFn (st.get 0) 0 + 1
      rw [EventHooks.once, EventHooks.get_set_self, countFn_insert_self],
    once_removed_before_dispatch EventHooks.empty 0 0 0
      (fun g st a => (g + a, if g = 0 then EventHooks.once st 0 0 0 else st)) 1
      (by decide)
      (fun st a => by
        show countFn ((EventHooks.once st 0 0 0).get 0) 0 = countFn (st.get 0) 0 + 1
        rw [EventHooks.once, EventHooks.get_set_self, countFn_insert_self])
      (fun g st a hg => if_neg hg)⟩

/-- Claim C8: every registry operation is a total Lean function (none
can raise), and `emit` on an event with zero registered listeners —
including any event of a freshly created registry — returns an empty
result sequence. -/
theorem emit_total_empty {A R : Type} (h : EventHooks) (e : Nat)
    (env : Nat → A → R) (args : A) (hempty : h.get e = []) :
    (h.emit e env args).1 = []
    ∧ (EventHooks.empty.emit e env args).1 = [] := by
  constructor
  · show (h.get e).map (fun r => env r.listener args) = []
    rw [hempty]
    rfl
  · rfl

/-- Instance of C8: event 0 has no listeners while event 1 does. -/
theorem emit_total_empty_witness :
    ((EventHooks.empty.on 1 4 0).get 0 = [])
    ∧ (((EventHooks.empty.on 1 4 0).emit 0 (fun (n a : Nat) => n + a) 3).1 = []
      ∧ (EventHooks.empty.emit 0 (fun (n a : Nat) => n + a) 3).1 = []) :=
  ⟨by decide,
    emit_total_empty (EventHooks.empty.on 1 4 0) 0 (fun n a => n + a) 3
      (by decide)⟩

theorem mapThrow_append_error {R E : Type} (f : Hook → Except E R)
    (l1 l2 : List Hook) (r : Hook) (err : E)
    (hok : ∀ x ∈ l1, ∃ v, f x = Except.ok v) (herr : f r = Except.error err) :
    mapThrow f (l1 ++ r :: l2) = Except.error err := by
  induction l1 with
  | nil => simp [mapThrow, herr]
  | cons y ys ih =>
    rcases hok y (List.mem_cons_self y ys) with ⟨v, hv⟩
    rw [List.cons_append]
    rw [mapThrow, hv, ih fun x hx => hok x (List.mem_cons_of_mem y hx)]

/-- Claim C9: when a listener of the snapshot throws and all listeners
before it succeed, `emit` propagates the exception (its result is that
error, so earlier listeners' values are lost), while the pre-dispatch
removal of once-records from the stored sequence has already been
applied and is not rolled back. -/
theorem listener_exception_propagates {A R E : Type} (h : EventHooks) (e : Nat)
    (env : Nat → A → Except E R) (args : A) (err : E)
    (l1 l2 : List Hook) (r : Hook)
    (hsplit : h.get e = l1 ++ r :: l2)
    (hok : ∀ x ∈ l1, ∃ v, env x.listener args = Except.ok v)
    (herr : env r.listener args = Except.error err) :
    (h.emitE e env args).1 = Except.error err
    ∧ ((h.emitE e env args).2).get e = (h.get e).filter (fun x => !x.once) := by
  constructor
  · show mapThrow (fun x => env x.listener args) (h.get e) = Except.error err
    rw [hsplit]
    exact mapThrow_append_error _ l1 l2 r err hok herr
  · show (h.set e ((h.get e).filter fun x => !x.once)).get e = _
    rw [EventHooks.get_set_self]

/-- Instance of C9: listener 0 succeeds, listener 1 throws error 9. -/
theorem listener_exception_propagates_witness :
    (((EventHooks.empty.on 0 0 0).on 0 1 1).get 0
      = [(⟨0, false, 0⟩ : Hook)] ++ (⟨1, false, 1⟩ : Hook) :: [])
    ∧ (∀ x ∈ [(⟨0, false, 0⟩ : Hook)], ∃ v,
        (fun (g a : Nat) => if g = 1 then Except.error (9 : Nat)
          else Except.ok (a + 1)) x.listener 5 = Except.ok v)
    ∧ ((((EventHooks.empty.on 0 0 0).on 0 1 1).emitE 0
          (fun (g a : Nat) => if g = 1 then Except.error (9 : Nat)
            else Except.ok (a + 1)) 5).1 = Except.error 9
      ∧ ((((EventHooks.empty.on 0 0 0).on 0 1 1).emitE 0
          (fun (g a : Nat) => if g = 1 then Except.error (9 : Nat)
            else Except.ok (a + 1)) 5).2).get 0
        = (((EventHooks.empty.on 0 0 0).on 0 1 1).get 0).filter
            (fun x => !x.once)) := by
  refine ⟨by decide, ?_, ?_⟩
  · intro x hx
    rw [List.mem_singleton] at hx
    subst hx
    exact ⟨6, rfl⟩
  · refine listener_exception_propagates ((EventHooks.empty.on 0 0 0).on 0 1 1) 0
      (fun g a => if g = 1 then Except.error 9 else Except.ok (a + 1)) 5 9
      [⟨0, false, 0⟩] [] ⟨1, false, 1⟩ (by decide) ?_ rfl
    intro x hx
    rw [List.mem_singleton] at hx
    subst hx
    exact ⟨6, rfl⟩

/-- Claim C10: registering the same callback twice for the same event
via `on` (or `once`) creates two distinct records — no deduplication —
and a subsequent `emit` produces one result per record of the stored
sequence. -/
theorem duplicate_registration_two_records {A R : Type} (h : EventHooks)
    (e fn : Nat) (o1 o2 : Int) (env : Nat → A → R) (args : A) :
    countFn (((h.on e fn o1).on e fn o2).get e) fn = countFn (h.get e) fn + 2
    ∧ countFn (((h.once e fn o1).once e fn o2).get e) fn
        = countFn (h.get e) fn + 2
    ∧ (((h.on e fn o1).on e fn o2).emit e env args).1
        = (((h.on e fn o1).on e fn o2).get e).map (fun r => env r.listener args)
    ∧ (((h.on e fn o1).on e fn o2).emit e env args).1.length
        = (((h.on e fn o1).on e fn o2).get e).length := by
  refine ⟨?_, ?_, rfl, ?_⟩
  · rw [EventHooks.on, EventHooks.get_set_self, countFn_insert_self,
      EventHooks.on, EventHooks.get_set_self, countFn_insert_self]
  · rw [EventHooks.once, EventHooks.get_set_self, countFn_insert_self,
      EventHooks.once, EventHooks.get_set_self, countFn_insert_self]
  · show ((((h.on e fn o1).on e fn o2).get e).map
      (fun r => env r.listener args)).length = _
    rw [List.length_map]
